import Mathlib

/-!
# albiondata-client: `client/operation_auction_get_offers.go`

A shallow embedding of the two operations of the file

* `operationAuctionGetOffers.Process` (the request), and
* `operationAuctionGetOffersResponse.Process` with its helper
  `sendToPrivateHTTP` (the response),

followed by the properties of the market-data specification that concern them.

Conventions of the embedding.

* Go strings are Lean strings; `strings.HasSuffix`, `strings.TrimSuffix` and
  `strings.Contains` are written out over the character lists.  The only
  patterns the source passes to them are the ASCII texts `/ingest`, `/` and `@`.
* `encoding/json` is embedded at the level of what it reads from a text: a
  payload is `JsonText.invalid` when `json.Unmarshal` into a
  `map[string]interface{}` returns an error, `JsonText.null` for the literal
  `null`, and `JsonText.object kvs` for an object with the members `kvs` in the
  order of the text (duplicate keys included).  Member values other than strings
  and `null` are carried as text (`JVal.other`), because the source never looks
  into them.
* The typed `json.Unmarshal` matches a member of an object to the field whose
  name is the key, and otherwise to the field whose name equals the key up to
  the case of its letters (`equalFold`).
* Side effects (log lines, the UUID draw, the publish call, the HTTP POSTs) are
  collected in a trace of `Effect`s, in program order.  The publish call
  `sendMsgToPublicUploaders` belongs to another file and appears as one action.
-/

namespace AlbionClient

/-! ## Go `strings` helpers -/

/-- Go `strings.HasSuffix`:
`len(s) >= len(suffix) && s[len(s)-len(suffix):] == suffix`. -/
def stringsHasSuffix (s suffix : String) : Bool :=
  decide (suffix.data.length ≤ s.data.length) &&
    (s.data.drop (s.data.length - suffix.data.length) == suffix.data)

/-- Go `strings.TrimSuffix`: `s[:len(s)-len(suffix)]` when `s` has the suffix,
`s` itself otherwise. -/
def stringsTrimSuffix (s suffix : String) : String :=
  if stringsHasSuffix s suffix then
    ⟨s.data.take (s.data.length - suffix.data.length)⟩
  else s

/-- Go `strings.Contains`: `substr` occurs in `s` as a contiguous block. -/
def stringsContains (s substr : String) : Bool :=
  decide (substr.data <:+: s.data)

/-! ## URL normalisation (`sendToPrivateHTTP`, lines 110-114) -/

/-- The target URL computed at the head of the loop body of `sendToPrivateHTTP`:
```go
url := baseURL
if !strings.HasSuffix(url, "/ingest") {
    url = strings.TrimSuffix(url, "/") + "/ingest"
}
``` -/
def ingestURL (baseURL : String) : String :=
  let url := baseURL
  if !stringsHasSuffix url "/ingest" then
    stringsTrimSuffix url "/" ++ "/ingest"
  else url

/-! ## JSON as `encoding/json` reads it -/

/-- A member value of a JSON object, as far as the source looks at it: the
literal `null`, a string (as `json.Unmarshal` decodes it: unescaped, invalid
UTF-8 replaced), or any other value (number,
boolean, array, nested object) carried by its text. -/
inductive JVal
  | null
  | str (s : String)
  | other (text : String)
  deriving DecidableEq, Repr

/-- The members of a JSON object in the order of the text. -/
abbrev JObject := List (String × JVal)

/-- A Go string holding a JSON payload, represented by what `encoding/json`
reads from it.  `invalid` covers every text for which `json.Unmarshal` into a
`map[string]interface{}` returns an error: malformed JSON and well-formed JSON
that is neither an object nor `null`. -/
inductive JsonText
  | invalid (text : String)
  | null
  | object (kvs : JObject)
  deriving DecidableEq, Repr

/-- A Go `map[string]interface{}`: an association list with distinct keys. -/
abbrev GoMap := List (String × JVal)

/-- Go map read `m[k]`: `none` stands for the absent key (a nil interface). -/
def mapIndex : GoMap → String → Option JVal
  | [], _ => none
  | (k', v) :: m, k => if k' = k then some v else mapIndex m k

/-- Go map write `m[k] = v`: overwrite the entry of `k`, or add one. -/
def mapAssign : GoMap → String → JVal → GoMap
  | [], k, v => [(k, v)]
  | (k', v') :: m, k, v => if k' = k then (k, v) :: m else (k', v') :: mapAssign m k v

/-- The map `json.Unmarshal` builds from the members of an object: members are
stored in text order, a repeated key overwriting the earlier value. -/
def goMapOf (kvs : JObject) : GoMap :=
  kvs.foldl (fun m kv => mapAssign m kv.1 kv.2) []

/-- `json.Unmarshal([]byte(v), &marketOrder)` for `var marketOrder
map[string]interface{}` (line 48).  The literal `null` leaves the map nil,
which reads like the empty map. -/
def jsonUnmarshalMap : JsonText → Except String GoMap
  | .invalid text => .error text
  | .null => .ok []
  | .object kvs => .ok (goMapOf kvs)

/-! ## The typed order and the upload -/

/-- Modelled from the spec: `lib.MarketOrder` is declared outside this file.
The spec gives it a `LocationID` field of type string, decoded from the member
`LocationId`, and remaining marketplace fields copied through; these are kept
together in `rest`. -/
structure MarketOrder (ρ : Type) where
  LocationID : String
  rest : ρ
  deriving DecidableEq, Repr

/-- Modelled from the spec: `lib.MarketUpload`, a batch holding the ordered
sequence of orders (`Orders`). -/
structure MarketUpload (ρ : Type) where
  Orders : List (MarketOrder ρ)
  deriving DecidableEq, Repr

/-- Modelled from the spec: the session state `albionState` is declared outside
this file.  It has the flag `WaitingForMarketData`, the current location
`LocationId` and the configured base URLs `PrivateHTTPURLs`, which are the
fields the source reads or writes; every other field is kept in `rest`. -/
structure albionState (σ : Type) where
  LocationId : String
  WaitingForMarketData : Bool
  PrivateHTTPURLs : List String
  rest : σ
  deriving DecidableEq, Repr

/-- What `client.Post` returns for one sink: a transport-level error, or a
response with its integer status code. -/
inductive HttpResult
  | transportError (err : String)
  | response (StatusCode : Int)
  deriving DecidableEq, Repr

/-- The collaborators of the file that live outside it.

* `zero`, `decodeRest`: how `json.Unmarshal` fills the remaining fields of a
  fresh `lib.MarketOrder` from the members of an object, and whether it reports
  an error for one of them.
* `reprint`: the text `json.Marshal` prints for the `interface{}` value that
  `json.Unmarshal` produced from a non-string, non-null member.
* `encodeUpload`: the JSON text of a `lib.MarketUpload`.
* `IsValidLocation`: the method of `albionState`.
* `NatsMarketOrdersIngest`: the topic constant of `lib`.
* `newV4`: `identifier.String()` of the UUID drawn by `uuid.NewV4()`, whose
  error the source discards.
* `post`: the result of `client.Post` for the sink at a position of
  `PrivateHTTPURLs`. -/
structure World (ρ σ : Type) where
  zero : ρ
  decodeRest : JObject → ρ × Bool
  reprint : String → String
  encodeUpload : MarketUpload ρ → String
  IsValidLocation : albionState σ → Bool
  NatsMarketOrdersIngest : String
  newV4 : String
  post : Nat → HttpResult

/-- Observable actions, in program order.

* `logDebug`: `log.Debug` (lines 27 and 36).
* `logFatal`: `log.Fatal(err2)` (line 50), which writes the error and ends the
  process.
* `logErrorConvert`: the `log.Errorf` of line 73.
* `uuidNewV4`: the draw of `uuid.NewV4()` (line 93), with the text of the
  identifier.
* `logInfoSending`: the `log.Infof` of line 94.
* `sendMsgToPublicUploaders`: the call of line 97, with the upload, the topic
  and the identifier it is given.
* `logErrorMarshal`: the `log.Errorf` of line 119.
* `httpPost`: `client.Post(url, contentType, body)` (line 129).
* `logErrorPost`: the `log.Errorf` of line 131.
* `logInfoSent`: the `log.Infof` of line 138.
* `logErrorStatus`: the `log.Errorf` of line 140. -/
inductive Effect (ρ : Type)
  | logDebug (msg : String)
  | logFatal (err : String)
  | logErrorConvert
  | uuidNewV4 (identifier : String)
  | logInfoSending (n : Nat) (identifier : String)
  | sendMsgToPublicUploaders (upload : MarketUpload ρ) (topic identifier : String)
  | logErrorMarshal (err : String)
  | httpPost (url contentType body : String)
  | logErrorPost (url err : String)
  | logInfoSent (n : Nat) (url identifier : String)
  | logErrorStatus (status : Int) (url : String)
  deriving DecidableEq, Repr

/-- The result of running an operation: the session state it leaves, the
actions it performed, and whether `log.Fatal` terminated the process. -/
structure Outcome (ρ σ : Type) where
  state : albionState σ
  trace : List (Effect ρ)
  exited : Bool
  deriving DecidableEq, Repr

/-! ## `json.Marshal` and the typed `json.Unmarshal` -/

/-- The value `json.Marshal` prints for a map entry. -/
def reprintVal {ρ σ : Type} (w : World ρ σ) : JVal → JVal
  | .null => .null
  | .str s => .str s
  | .other text => .other (w.reprint text)

/-- `json.Marshal(marketOrder)` (line 63): an object whose members are the map
entries sorted by key.  On a map that `json.Unmarshal` built it has no error
case, so the discarded error of line 63 is always nil. -/
def jsonMarshalMap {ρ σ : Type} (w : World ρ σ) (m : GoMap) : JsonText :=
  .object ((m.insertionSort (fun a b => a.1.data ≤ b.1.data)).map
    (fun kv => (kv.1, reprintVal w kv.2)))

/-- The name folding of `encoding/json` for a field name made of ASCII letters
other than `k` and `s`, as `LocationId` is: the key equals the name up to the
case of the ASCII letters. -/
def equalFold (name key : String) : Bool :=
  key.data.map Char.toLower == name.data.map Char.toLower

/-- One member of an object met while decoding into the string field tagged
`LocationId`: a string is stored, `null` has no effect, any other value leaves
the field as it is and is reported as an error.  The member is decoded into
this field when its key is `LocationId` or equals it up to letter case;
`lib.MarketOrder` is taken to have no other field with such a name. -/
def storeLocation (acc : String × Bool) (kv : String × JVal) : String × Bool :=
  if equalFold "LocationId" kv.1 then
    match kv.2 with
    | .str s => (s, acc.2)
    | .null => acc
    | .other _ => (acc.1, true)
  else acc

/-- `json.Unmarshal([]byte(v), order)` for `order := &lib.MarketOrder{}`
(lines 69-71): the order as filled in, and whether `err != nil`.  The members
are decoded in the order of the text, so a later member for the same field
overwrites an earlier one. -/
def jsonUnmarshalOrder {ρ σ : Type} (w : World ρ σ) : JsonText → MarketOrder ρ × Bool
  | .invalid _ => (⟨"", w.zero⟩, true)
  | .null => (⟨"", w.zero⟩, false)
  | .object kvs =>
    let loc := kvs.foldl storeLocation ("", false)
    let rest := w.decodeRest kvs
    (⟨loc.1, rest.1⟩, loc.2 || rest.2)

/-- `json.Marshal(upload)` (line 117).  A `lib.MarketUpload` holds only strings
and numbers, for which `json.Marshal` has no error case. -/
def jsonMarshalUpload {ρ σ : Type} (w : World ρ σ) (upload : MarketUpload ρ) :
    Except String String :=
  .ok (w.encodeUpload upload)

/-! ## `operationAuctionGetOffers.Process` (lines 26-29) -/

/-- The request operation (lines 15-24); `uint32` and `uint16` are naturals. -/
structure operationAuctionGetOffers where
  Category : String
  SubCategory : String
  Quality : String
  Enchantment : Nat
  EnchantmentLevel : String
  ItemIds : List Nat
  MaxResults : Nat
  IsAscendingOrder : Bool
  deriving DecidableEq, Repr

/-- Lines 26-29:
```go
log.Debug("Got AuctionGetOffers operation...")
state.WaitingForMarketData = true
``` -/
def operationAuctionGetOffers.Process {ρ σ : Type} (_op : operationAuctionGetOffers)
    (state : albionState σ) : Outcome ρ σ :=
  { state := { state with WaitingForMarketData := true },
    trace := [Effect.logDebug "Got AuctionGetOffers operation..."],
    exited := false }

/-! ## `operationAuctionGetOffersResponse.Process` (lines 35-101) -/

/-- The response operation (lines 31-33): the raw per-order payloads. -/
structure operationAuctionGetOffersResponse where
  MarketOrders : List JsonText
  deriving DecidableEq, Repr

/-- Line 54: `location, _ := marketOrder["LocationId"].(string)`; an absent key
or a value that is not a string gives the empty string. -/
def pullLocation (marketOrder : GoMap) : String :=
  match mapIndex marketOrder "LocationId" with
  | some (.str s) => s
  | _ => ""

/-- Lines 56-67: when the location has an `@`, the location is written back to
the map and `v` becomes the re-marshalled map; otherwise `v` is kept. -/
def rewriteLocation {ρ σ : Type} (w : World ρ σ) (marketOrder : GoMap) (v : JsonText) :
    JsonText :=
  let location := pullLocation marketOrder
  if stringsContains location "@" then
    let marketOrder := mapAssign marketOrder "LocationId" (.str location)
    let newJson := jsonMarshalMap w marketOrder
    newJson
  else v

/-- Lines 76-80: the location is taken from the session state only when the
order has none. -/
def setLocation {ρ σ : Type} (order : MarketOrder ρ) (state : albionState σ) :
    MarketOrder ρ :=
  if order.LocationID = "" then { order with LocationID := state.LocationId } else order

/-- What one iteration of the loop over `op.MarketOrders` does. -/
inductive Iteration (ρ : Type)
  | fatal (err : String)
  | appended (order : MarketOrder ρ) (log : List (Effect ρ))
  deriving DecidableEq, Repr

/-- Lines 46-71 for one payload `v`: the first `json.Unmarshal`, whose error
goes to `log.Fatal`, the rewriting of `v`, and the typed `json.Unmarshal`, which
gives the order as decoded together with whether `err != nil`. -/
def decodeRecord {ρ σ : Type} (w : World ρ σ) (v : JsonText) :
    Except String (MarketOrder ρ × Bool) :=
  match jsonUnmarshalMap v with
  | .error err2 => .error err2
  | .ok marketOrder =>
    let v := rewriteLocation w marketOrder v
    .ok (jsonUnmarshalOrder w v)

/-- The body of the loop of lines 45-83 for one payload `v`: `log.Fatal` on a
payload the first `json.Unmarshal` rejects; otherwise the error line of line 73
when the typed decoding failed, the location taken from the session if the
order has none, and the order appended in either case. -/
def loopBody {ρ σ : Type} (w : World ρ σ) (state : albionState σ) (v : JsonText) :
    Iteration ρ :=
  match decodeRecord w v with
  | .error err2 => .fatal err2
  | .ok decoded =>
    let log := if decoded.2 then [Effect.logErrorConvert] else []
    let order := setLocation decoded.1 state
    .appended order log

/-- The loop of lines 45-83: the orders appended, in input order, with the log
lines written; `none` when `log.Fatal` ended the process, in which case the
later payloads are not looked at. -/
def collectOrders {ρ σ : Type} (w : World ρ σ) (state : albionState σ) :
    List JsonText → Option (List (MarketOrder ρ)) × List (Effect ρ)
  | [] => (some [], [])
  | v :: vs =>
    match loopBody w state v with
    | .fatal err2 => (none, [Effect.logFatal err2])
    | .appended order log =>
      let r := collectOrders w state vs
      (r.1.map (fun orders => order :: orders), log ++ r.2)

/-- The loop of `sendToPrivateHTTP` (lines 109-142) from the sink at position
`i` on. -/
def privateHTTPLoop {ρ σ : Type} (w : World ρ σ) (upload : MarketUpload ρ)
    (identifier : String) : Nat → List String → List (Effect ρ)
  | _, [] => []
  | i, baseURL :: urls =>
    let url := ingestURL baseURL
    match jsonMarshalUpload w upload with
    | .error err => Effect.logErrorMarshal err :: privateHTTPLoop w upload identifier (i + 1) urls
    | .ok jsonData =>
      match w.post i with
      | .transportError err =>
        Effect.httpPost url "application/json" jsonData ::
          Effect.logErrorPost url err ::
            privateHTTPLoop w upload identifier (i + 1) urls
      | .response StatusCode =>
        Effect.httpPost url "application/json" jsonData ::
          (if StatusCode ≥ 200 && StatusCode < 300 then
            Effect.logInfoSent upload.Orders.length url identifier
          else Effect.logErrorStatus StatusCode url) ::
            privateHTTPLoop w upload identifier (i + 1) urls

/-- `operationAuctionGetOffersResponse.sendToPrivateHTTP` (lines 104-143). -/
def operationAuctionGetOffersResponse.sendToPrivateHTTP {ρ σ : Type} (w : World ρ σ)
    (_op : operationAuctionGetOffersResponse) (upload : MarketUpload ρ)
    (state : albionState σ) (identifier : String) : List (Effect ρ) :=
  if state.PrivateHTTPURLs.length = 0 then []
  else privateHTTPLoop w upload identifier 0 state.PrivateHTTPURLs

/-- `operationAuctionGetOffersResponse.Process` (lines 35-101). -/
def operationAuctionGetOffersResponse.Process {ρ σ : Type} (w : World ρ σ)
    (op : operationAuctionGetOffersResponse) (state : albionState σ) : Outcome ρ σ :=
  let start : List (Effect ρ) := [Effect.logDebug "Got response to AuctionGetOffers operation..."]
  let state := { state with WaitingForMarketData := false }
  if !w.IsValidLocation state then
    { state := state, trace := start, exited := false }
  else
    match collectOrders w state op.MarketOrders with
    | (none, log) => { state := state, trace := start ++ log, exited := true }
    | (some orders, log) =>
      if orders.length < 1 then
        { state := state, trace := start ++ log, exited := false }
      else
        let upload : MarketUpload ρ := { Orders := orders }
        let identifier := w.newV4
        { state := state,
          trace := start ++ log ++
            [Effect.uuidNewV4 identifier,
             Effect.logInfoSending orders.length identifier,
             Effect.sendMsgToPublicUploaders upload w.NatsMarketOrdersIngest identifier] ++
            op.sendToPrivateHTTP w upload state identifier,
          exited := false }

/-! ## Relating payloads and orders -/

/-- The order `o` is what the loop appends for the payload `v`: the typed
decoding of `v`, with the session location filled in where it has none. -/
def Appends {ρ σ : Type} (w : World ρ σ) (state : albionState σ) (v : JsonText)
    (o : MarketOrder ρ) : Prop :=
  ∃ d, decodeRecord w v = Except.ok d ∧ o = setLocation d.1 state

/-- The first `json.Unmarshal` (line 48) accepts the payload: `err2 == nil`. -/
def acceptedAsMap (v : JsonText) : Bool :=
  match jsonUnmarshalMap v with
  | .ok _ => true
  | .error _ => false

/-- The typed decoding of the payload (line 71) returns an error. -/
def failsTypedDecode {ρ σ : Type} (w : World ρ σ) (v : JsonText) : Bool :=
  match decodeRecord w v with
  | .ok d => d.2
  | .error _ => false

/-! ## Reading a trace -/

/-- A draw of `uuid.NewV4()`. -/
def Effect.isNewV4 {ρ : Type} : Effect ρ → Bool
  | .uuidNewV4 _ => true
  | _ => false

/-- A call of `sendMsgToPublicUploaders`, the pub/sub sink. -/
def Effect.isPublish {ρ : Type} : Effect ρ → Bool
  | .sendMsgToPublicUploaders _ _ _ => true
  | _ => false

/-- A `client.Post`, the attempt on one HTTP sink. -/
def Effect.isHttpPost {ρ : Type} : Effect ρ → Bool
  | .httpPost _ _ _ => true
  | _ => false

/-- The error line written when the typed decoding of a record fails. -/
def Effect.isErrorConvert {ρ : Type} : Effect ρ → Bool
  | .logErrorConvert => true
  | _ => false

/-! ## The reference rule of the spec for location resolution -/

/-- Spec 4.2, `resolve(o, sessionLocation)`: if `o.LocationID` is the empty
string it becomes `sessionLocation`; otherwise it is left untouched.  No other
field is written. -/
def specResolve {ρ : Type} (o : MarketOrder ρ) (sessionLocation : String) : MarketOrder ρ :=
  { LocationID := if o.LocationID = "" then sessionLocation else o.LocationID,
    rest := o.rest }

/-! ## A concrete world for examples -/

/-- The member `ItemTypeId` as a string field: the last string wins, `null` has
no effect, another value is an error. -/
def storeItemTypeId (acc : String × Bool) (kv : String × JVal) : String × Bool :=
  if equalFold "ItemTypeId" kv.1 then
    match kv.2 with
    | .str s => (s, acc.2)
    | .null => acc
    | .other _ => (acc.1, true)
  else acc

/-- A world whose orders carry one more field, the item type; the session has no
further fields; a location is valid when it is not empty; every sink answers
200 except the one at position 1, which cannot be reached. -/
def demoWorld : World String Unit where
  zero := ""
  decodeRest := fun kvs => kvs.foldl storeItemTypeId ("", false)
  reprint := fun text => text
  encodeUpload := fun upload =>
    String.intercalate "," (upload.Orders.map (fun o => o.LocationID ++ ":" ++ o.rest))
  IsValidLocation := fun state => state.LocationId != ""
  NatsMarketOrdersIngest := "marketorders.ingest"
  newV4 := "6ba7b810-9dad-41d1-80b4-00c04fd430c8"
  post := fun i => if i = 1 then .transportError "connection refused" else .response 200

/-- A session standing in location 3005 with the given private sinks. -/
def demoState (urls : List String) : albionState Unit :=
  { LocationId := "3005", WaitingForMarketData := true, PrivateHTTPURLs := urls, rest := () }

/-- The two records of the example scenario of the spec. -/
def demoRecords : List JsonText :=
  [ .object [("LocationId", .str "0007@1000"), ("ItemTypeId", .str "T4_BAG")],
    .object [("LocationId", .str ""), ("ItemTypeId", .str "T5_SWORD")] ]

/-! ## Lemmas on the string helpers -/

theorem stringsHasSuffix_iff (s suffix : String) :
    stringsHasSuffix s suffix = true ↔ suffix.data <:+ s.data := by
  unfold stringsHasSuffix
  simp only [Bool.and_eq_true, decide_eq_true_eq, beq_iff_eq]
  constructor
  · rintro ⟨_, h⟩
    refine ⟨s.data.take (s.data.length - suffix.data.length), ?_⟩
    have h2 := List.take_append_drop (s.data.length - suffix.data.length) s.data
    rw [h] at h2
    exact h2
  · rintro ⟨t, ht⟩
    have hlen : s.data.length = t.length + suffix.data.length := by
      rw [← ht, List.length_append]
    refine ⟨by omega, ?_⟩
    have : s.data.length - suffix.data.length = t.length := by omega
    rw [this, ← ht, List.drop_left]

theorem stringsHasSuffix_append (p suffix : String) :
    stringsHasSuffix (p ++ suffix) suffix = true := by
  rw [stringsHasSuffix_iff, String.data_append]
  exact List.suffix_append _ _

theorem stringsTrimSuffix_append (p suffix : String) :
    stringsTrimSuffix (p ++ suffix) suffix = p := by
  unfold stringsTrimSuffix
  rw [if_pos (stringsHasSuffix_append p suffix)]
  apply String.ext
  simp [String.data_append]

theorem stringsTrimSuffix_of_not (s suffix : String)
    (h : stringsHasSuffix s suffix = false) : stringsTrimSuffix s suffix = s := by
  unfold stringsTrimSuffix
  simp [h]

/-- A string that has the suffix splits as the trimmed text followed by the
suffix. -/
theorem stringsTrimSuffix_append_self (s suffix : String)
    (h : stringsHasSuffix s suffix = true) :
    stringsTrimSuffix s suffix ++ suffix = s := by
  obtain ⟨t, ht⟩ := (stringsHasSuffix_iff s suffix).1 h
  have hs : s = (⟨t⟩ : String) ++ suffix := by
    apply String.ext
    simp [String.data_append, ht]
  rw [hs, stringsTrimSuffix_append]

theorem ingestURL_of_suffix (u : String) (h : stringsHasSuffix u "/ingest" = true) :
    ingestURL u = u := by
  simp [ingestURL, h]

theorem ingestURL_of_not_suffix (u : String) (h : stringsHasSuffix u "/ingest" = false) :
    ingestURL u = stringsTrimSuffix u "/" ++ "/ingest" := by
  simp [ingestURL, h]

theorem ingestURL_hasSuffix (u : String) :
    stringsHasSuffix (ingestURL u) "/ingest" = true := by
  cases h : stringsHasSuffix u "/ingest"
  · rw [ingestURL_of_not_suffix u h]
    exact stringsHasSuffix_append _ _
  · rw [ingestURL_of_suffix u h]
    exact h


/-! ## URL normalisation: C7 and C8 -/

/-- C7: the URL normalisation of `sendToPrivateHTTP` is idempotent, and every
URL that already ends with `/ingest` is a fixed point of it. -/
theorem ingestURL_idempotent (u : String) :
    ingestURL (ingestURL u) = ingestURL u ∧
      (stringsHasSuffix u "/ingest" = true → ingestURL u = u) :=
  ⟨ingestURL_of_suffix _ (ingestURL_hasSuffix u), ingestURL_of_suffix u⟩

/-- C7 at `http://h/base/ingest`, which ends with `/ingest`. -/
theorem ingestURL_idempotent_witness :
    stringsHasSuffix "http://h/base/ingest" "/ingest" = true ∧
      ingestURL (ingestURL "http://h/base/ingest") = ingestURL "http://h/base/ingest" ∧
      ingestURL "http://h/base/ingest" = "http://h/base/ingest" :=
  ⟨by decide, (ingestURL_idempotent "http://h/base/ingest").1,
    (ingestURL_idempotent "http://h/base/ingest").2 (by decide)⟩

/-- C8 as stated fails: `http://h/ingest/` does not end with `/ingest`, so its
one trailing `/` is trimmed and the segment is appended, giving a URL that ends
with `/ingest/ingest` although the base URL did not; and for `http://h/base//`
only one `/` is trimmed, so the text before the appended segment,
`http://h/base/`, still ends with `/`. -/
theorem ingestURL_single_segment_counterexample :
    (ingestURL "http://h/ingest/" = "http://h/ingest/ingest" ∧
      stringsHasSuffix (ingestURL "http://h/ingest/") "/ingest/ingest" = true ∧
      stringsHasSuffix "http://h/ingest/" "/ingest/ingest" = false) ∧
    (stringsHasSuffix "http://h/base//" "/ingest" = false ∧
      ingestURL "http://h/base//" = "http://h/base/" ++ "/ingest" ∧
      stringsHasSuffix "http://h/base/" "/" = true) := by
  decide

/-- C8, amended: the normalised URL always ends with `/ingest`; a base URL that
ends with `/ingest` is used as it is; otherwise the result is `p ++ "/ingest"`
where `p` is the base URL with one trailing `/` removed if it has one, so `p`
does not end with `/` unless the base URL ended with `//`; and when the base URL
does not end with `/ingest/`, the result ends with `/ingest/ingest` only if the
base URL did.  `http://h/base/` and `http://h/base` both give
`http://h/base/ingest`. -/
theorem ingestURL_ends_with_ingest (u : String) :
    stringsHasSuffix (ingestURL u) "/ingest" = true ∧
    (stringsHasSuffix u "/ingest" = true → ingestURL u = u) ∧
    (stringsHasSuffix u "/ingest" = false →
      ∃ p : String, ingestURL u = p ++ "/ingest" ∧ (p = u ∨ p ++ "/" = u) ∧
        (stringsHasSuffix u "/" = false → p = u) ∧
        (stringsHasSuffix u "/" = true → p ++ "/" = u) ∧
        (stringsHasSuffix u "//" = false → stringsHasSuffix p "/" = false)) ∧
    (stringsHasSuffix u "/ingest/" = false →
      stringsHasSuffix (ingestURL u) "/ingest/ingest" = true →
      stringsHasSuffix u "/ingest/ingest" = true) ∧
    ingestURL "http://h/base/" = "http://h/base/ingest" ∧
    ingestURL "http://h/base" = "http://h/base/ingest" := by
  refine ⟨ingestURL_hasSuffix u, ingestURL_of_suffix u, ?_, ?_, by decide, by decide⟩
  · intro hu
    refine ⟨stringsTrimSuffix u "/", ingestURL_of_not_suffix u hu, ?_, ?_, ?_, ?_⟩
    · cases hs : stringsHasSuffix u "/"
      · exact Or.inl (stringsTrimSuffix_of_not u "/" hs)
      · exact Or.inr (stringsTrimSuffix_append_self u "/" hs)
    · exact stringsTrimSuffix_of_not u "/"
    · exact stringsTrimSuffix_append_self u "/"
    · intro h2
      cases hs : stringsHasSuffix u "/"
      · rw [stringsTrimSuffix_of_not u "/" hs]; exact hs
      · by_contra hp
        rw [Bool.not_eq_false] at hp
        apply Bool.false_ne_true
        rw [← h2]
        have e1 := stringsTrimSuffix_append_self u "/" hs
        have e2 := stringsTrimSuffix_append_self _ "/" hp
        have hd : u.data =
            (stringsTrimSuffix (stringsTrimSuffix u "/") "/").data ++ ("/".data ++ "/".data) := by
          rw [← List.append_assoc, ← String.data_append, ← String.data_append, e2, e1]
        rw [stringsHasSuffix_iff]
        exact ⟨(stringsTrimSuffix (stringsTrimSuffix u "/") "/").data, hd.symm⟩
  · intro h1 h2
    cases hu : stringsHasSuffix u "/ingest"
    · exfalso
      rw [ingestURL_of_not_suffix u hu, stringsHasSuffix_iff] at h2
      obtain ⟨t, ht⟩ := h2
      rw [String.data_append] at ht
      have hsplit : ("/ingest/ingest" : String).data = "/ingest".data ++ "/ingest".data := by
        decide
      rw [hsplit, ← List.append_assoc] at ht
      have ht2 := List.append_cancel_right ht
      cases hs : stringsHasSuffix u "/"
      · rw [stringsTrimSuffix_of_not u "/" hs] at ht2
        have : stringsHasSuffix u "/ingest" = true :=
          (stringsHasSuffix_iff _ _).2 ⟨t, ht2⟩
        rw [hu] at this
        exact Bool.false_ne_true this
      · have e1 := stringsTrimSuffix_append_self u "/" hs
        have : stringsHasSuffix u "/ingest/" = true := by
          rw [stringsHasSuffix_iff]
          refine ⟨t, ?_⟩
          rw [← e1, String.data_append, ← ht2]
          simp
        rw [h1] at this
        exact Bool.false_ne_true this
    · rw [ingestURL_of_suffix u hu] at h2
      exact h2

/-- C8 amended, at `http://h/base/`: it ends with neither `/ingest`, `//` nor
`/ingest/`, and has one trailing `/`. -/
theorem ingestURL_ends_with_ingest_witness :
    stringsHasSuffix (ingestURL "http://h/base/") "/ingest" = true ∧
    (∃ p : String, ingestURL "http://h/base/" = p ++ "/ingest" ∧
        (p = "http://h/base/" ∨ p ++ "/" = "http://h/base/") ∧
        (stringsHasSuffix "http://h/base/" "/" = false → p = "http://h/base/") ∧
        (stringsHasSuffix "http://h/base/" "/" = true → p ++ "/" = "http://h/base/") ∧
        (stringsHasSuffix "http://h/base/" "//" = false → stringsHasSuffix p "/" = false)) ∧
    stringsHasSuffix (ingestURL "http://h/base/") "/ingest/ingest" = false :=
  ⟨(ingestURL_ends_with_ingest "http://h/base/").1,
    (ingestURL_ends_with_ingest "http://h/base/").2.2.1 (by decide),
    by
      cases h : stringsHasSuffix (ingestURL "http://h/base/") "/ingest/ingest"
      · rfl
      · exact absurd ((ingestURL_ends_with_ingest "http://h/base/").2.2.2.1 (by decide) h)
          (by decide)⟩

/-! ## The HTTP sinks: C9 -/

/-- C9: for every HTTP sink delivery the POST is followed by one report line,
and that line is the success line exactly when `client.Post` returned no
transport error and a status `s` with `200 ≤ s ≤ 299`; a transport error gives
the transport error line and every other status (199 and 300 among them) the
status error line.  Whatever the report, the loop goes on with the next sink. -/
theorem sink_success_iff_2xx {ρ σ : Type} (w : World ρ σ) (upload : MarketUpload ρ)
    (identifier : String) (i : Nat) (baseURL : String) (urls : List String) :
    ∃ report : Effect ρ,
      privateHTTPLoop w upload identifier i (baseURL :: urls) =
        Effect.httpPost (ingestURL baseURL) "application/json" (w.encodeUpload upload) ::
          report :: privateHTTPLoop w upload identifier (i + 1) urls ∧
      (report = Effect.logInfoSent upload.Orders.length (ingestURL baseURL) identifier ↔
        ∃ s : Int, w.post i = HttpResult.response s ∧ 200 ≤ s ∧ s ≤ 299) ∧
      (∀ err, w.post i = HttpResult.transportError err →
        report = Effect.logErrorPost (ingestURL baseURL) err) ∧
      (∀ s : Int, w.post i = HttpResult.response s → ¬ (200 ≤ s ∧ s ≤ 299) →
        report = Effect.logErrorStatus s (ingestURL baseURL)) ∧
      (w.post i = HttpResult.response 199 →
        report = Effect.logErrorStatus 199 (ingestURL baseURL)) ∧
      (w.post i = HttpResult.response 300 →
        report = Effect.logErrorStatus 300 (ingestURL baseURL)) := by
  cases hp : w.post i with
  | transportError err =>
    refine ⟨Effect.logErrorPost (ingestURL baseURL) err, ?_, ?_, ?_, ?_, ?_, ?_⟩
    · simp [privateHTTPLoop, jsonMarshalUpload, hp]
    · simp
    · intro err2 h; cases h; rfl
    · intro s h; cases h
    · intro h; cases h
    · intro h; cases h
  | response s =>
    by_cases hs : 200 ≤ s ∧ s ≤ 299
    · refine ⟨Effect.logInfoSent upload.Orders.length (ingestURL baseURL) identifier,
        ?_, ?_, ?_, ?_, ?_, ?_⟩
      · have h3 : s < 300 := by omega
        simp [privateHTTPLoop, jsonMarshalUpload, hp, hs.1, h3]
      · simp [hs]
      · intro err h; cases h
      · intro s2 h hn; cases h; exact absurd hs hn
      · intro h; cases h; omega
      · intro h; cases h; omega
    · refine ⟨Effect.logErrorStatus s (ingestURL baseURL), ?_, ?_, ?_, ?_, ?_, ?_⟩
      · have h3 : ¬ (200 ≤ s ∧ s < 300) := fun h => hs ⟨h.1, by omega⟩
        simp only [privateHTTPLoop, jsonMarshalUpload, hp]
        have : (decide (s ≥ 200) && decide (s < 300)) = false := by
          simpa using h3
        simp [this]
      · simp [hs]
      · intro err h; cases h
      · intro s2 h _; cases h; rfl
      · intro h; cases h; rfl
      · intro h; cases h; rfl

/-- C9 in the example world, whose sink at position 1 cannot be reached: the
report is the transport error line. -/
theorem sink_success_iff_2xx_witness :
    ∃ report : Effect String,
      privateHTTPLoop demoWorld ⟨[⟨"3005", "T4_BAG"⟩]⟩ "id" 1 ["http://h/base"] =
        [Effect.httpPost "http://h/base/ingest" "application/json" "3005:T4_BAG", report] ∧
      report = Effect.logErrorPost "http://h/base/ingest" "connection refused" := by
  obtain ⟨report, h1, _, h3, _⟩ :=
    sink_success_iff_2xx demoWorld ⟨[⟨"3005", "T4_BAG"⟩]⟩ "id" 1 "http://h/base" []
  have h4 := h3 "connection refused" (by decide)
  refine ⟨report, ?_, ?_⟩
  · rw [h1, h4]; decide
  · rw [h4]; decide

/-! ## The session state: C10 and C3 -/

/-- C10: the request operation sets `WaitingForMarketData` to true and changes
no other state field; the response operation leaves the state with
`WaitingForMarketData` false and no other change on every path; and when the
location is invalid the response is discarded: the only action is the debug
line, nothing is published or posted, the process is not ended, whatever the
payloads are. -/
theorem waiting_flag_and_discard {ρ σ : Type} (w : World ρ σ)
    (req : operationAuctionGetOffers) (op : operationAuctionGetOffersResponse)
    (state : albionState σ) :
    (req.Process state : Outcome ρ σ).state = { state with WaitingForMarketData := true } ∧
    (op.Process w state).state = { state with WaitingForMarketData := false } ∧
    (w.IsValidLocation { state with WaitingForMarketData := false } = false →
      op.Process w state =
        { state := { state with WaitingForMarketData := false },
          trace := [Effect.logDebug "Got response to AuctionGetOffers operation..."],
          exited := false }) := by
  refine ⟨rfl, ?_, ?_⟩
  · unfold operationAuctionGetOffersResponse.Process
    simp only []
    split
    · rfl
    · split
      · rfl
      · split <;> rfl
  · intro h
    unfold operationAuctionGetOffersResponse.Process
    simp [h]

/-- C10 in the example world: a session whose location is not set receives a
response with a payload that is not JSON and one with an `@` location. -/
theorem waiting_flag_and_discard_witness :
    operationAuctionGetOffersResponse.Process demoWorld
        ⟨[JsonText.invalid "not json", JsonText.object [("LocationId", JVal.str "0007@1000")]]⟩
        { LocationId := "", WaitingForMarketData := true,
          PrivateHTTPURLs := ["http://h/base"], rest := () } =
      { state := { LocationId := "", WaitingForMarketData := false,
                   PrivateHTTPURLs := ["http://h/base"], rest := () },
        trace := [Effect.logDebug "Got response to AuctionGetOffers operation..."],
        exited := false } :=
  (waiting_flag_and_discard demoWorld ⟨"", "", "", 0, "", [], 0, false⟩
    ⟨[JsonText.invalid "not json", JsonText.object [("LocationId", JVal.str "0007@1000")]]⟩
    { LocationId := "", WaitingForMarketData := true,
      PrivateHTTPURLs := ["http://h/base"], rest := () }).2.2 (by decide)

/-- C3: a response with no raw records, in any session state, performs the
debug line only: no batch is handed to a sink, no identifier is drawn, neither
the pub/sub sink nor an HTTP sink is invoked. -/
theorem empty_response_no_dispatch {ρ σ : Type} (w : World ρ σ) (state : albionState σ) :
    operationAuctionGetOffersResponse.Process w ⟨[]⟩ state =
        { state := { state with WaitingForMarketData := false },
          trace := [Effect.logDebug "Got response to AuctionGetOffers operation..."],
          exited := false } ∧
    (∀ e ∈ (operationAuctionGetOffersResponse.Process w ⟨[]⟩ state).trace,
      e.isNewV4 = false ∧ e.isPublish = false ∧ e.isHttpPost = false) := by
  have h : operationAuctionGetOffersResponse.Process w ⟨[]⟩ state =
        { state := { state with WaitingForMarketData := false },
          trace := [Effect.logDebug "Got response to AuctionGetOffers operation..."],
          exited := false } := by
    unfold operationAuctionGetOffersResponse.Process
    cases hv : w.IsValidLocation { state with WaitingForMarketData := false } <;>
      simp [hv, collectOrders]
  refine ⟨h, ?_⟩
  rw [h]
  intro e he
  simp only [List.mem_singleton] at he
  subst he
  exact ⟨rfl, rfl, rfl⟩

/-! ## Lemmas on Go maps and the JSON round trip of the location -/

theorem mem_keys_mapAssign (m : GoMap) (k : String) (v : JVal) (x : String)
    (h : x ∈ (mapAssign m k v).map Prod.fst) : x = k ∨ x ∈ m.map Prod.fst := by
  induction m with
  | nil => simp [mapAssign] at h; exact Or.inl h
  | cons kv m ih =>
    obtain ⟨k', v'⟩ := kv
    unfold mapAssign at h
    split at h
    · rename_i hk
      simp only [List.map_cons, List.mem_cons] at h ⊢
      rcases h with h | h
      · exact Or.inl h
      · exact Or.inr (Or.inr h)
    · simp only [List.map_cons, List.mem_cons] at h ⊢
      rcases h with h | h
      · exact Or.inr (Or.inl h)
      · rcases ih h with h | h
        · exact Or.inl h
        · exact Or.inr (Or.inr h)

theorem mapAssign_keys_nodup (m : GoMap) (k : String) (v : JVal)
    (h : (m.map Prod.fst).Nodup) : ((mapAssign m k v).map Prod.fst).Nodup := by
  induction m with
  | nil => simp [mapAssign]
  | cons kv m ih =>
    obtain ⟨k', v'⟩ := kv
    simp only [List.map_cons, List.nodup_cons] at h
    unfold mapAssign
    split
    · rename_i hk
      subst hk
      simp only [List.map_cons, List.nodup_cons]
      exact h
    · rename_i hk
      simp only [List.map_cons, List.nodup_cons]
      refine ⟨fun hmem => ?_, ih h.2⟩
      rcases mem_keys_mapAssign m k v k' hmem with h1 | h1
      · exact hk h1
      · exact h.1 h1

theorem foldl_mapAssign_nodup (kvs : JObject) (m : GoMap) (h : (m.map Prod.fst).Nodup) :
    ((kvs.foldl (fun m kv => mapAssign m kv.1 kv.2) m).map Prod.fst).Nodup := by
  induction kvs generalizing m with
  | nil => exact h
  | cons kv kvs ih => exact ih _ (mapAssign_keys_nodup m kv.1 kv.2 h)

theorem goMapOf_nodup (kvs : JObject) : ((goMapOf kvs).map Prod.fst).Nodup :=
  foldl_mapAssign_nodup kvs [] (by simp)

theorem filter_key_of_not_mem (m : GoMap) (k : String) (h : k ∉ m.map Prod.fst) :
    m.filter (fun kv => decide (kv.1 = k)) = [] := by
  rw [List.filter_eq_nil_iff]
  intro kv hkv
  simp only [decide_eq_true_eq]
  intro hk
  exact h (List.mem_map.2 ⟨kv, hkv, hk⟩)

/-- After `m[k] = v` the map has exactly one entry with the key `k`. -/
theorem filter_key_mapAssign (m : GoMap) (k : String) (v : JVal)
    (h : (m.map Prod.fst).Nodup) :
    (mapAssign m k v).filter (fun kv => decide (kv.1 = k)) = [(k, v)] := by
  induction m with
  | nil => simp [mapAssign]
  | cons kv m ih =>
    obtain ⟨k', v'⟩ := kv
    simp only [List.map_cons, List.nodup_cons] at h
    unfold mapAssign
    split
    · rename_i hk
      subst hk
      rw [List.filter_cons_of_pos (by simp), filter_key_of_not_mem m k' h.1]
    · rename_i hk
      rw [List.filter_cons_of_neg (by simpa using hk)]
      exact ih h.2

theorem storeLocation_of_ne (acc : String × Bool) (kv : String × JVal)
    (h : equalFold "LocationId" kv.1 = false) : storeLocation acc kv = acc := by
  simp [storeLocation, h]

/-- Only the members whose key is `LocationId` up to letter case matter to the
location field. -/
theorem foldl_storeLocation_filter (l : JObject) (acc : String × Bool) :
    l.foldl storeLocation acc =
      (l.filter (fun kv => equalFold "LocationId" kv.1)).foldl storeLocation acc := by
  induction l generalizing acc with
  | nil => rfl
  | cons kv l ih =>
    cases hk : equalFold "LocationId" kv.1
    · rw [List.filter_cons_of_neg (by simp [hk])]
      simp only [List.foldl_cons]
      rw [storeLocation_of_ne acc kv hk]
      exact ih _
    · rw [List.filter_cons_of_pos (by simp [hk])]
      simp only [List.foldl_cons]
      exact ih _

theorem mem_keys_foldl_mapAssign (kvs : JObject) (m : GoMap) (x : String)
    (h : x ∈ (kvs.foldl (fun m kv => mapAssign m kv.1 kv.2) m).map Prod.fst) :
    x ∈ m.map Prod.fst ∨ x ∈ kvs.map Prod.fst := by
  induction kvs generalizing m with
  | nil => exact Or.inl h
  | cons kv kvs ih =>
    simp only [List.foldl_cons] at h
    rcases ih _ h with h1 | h1
    · rcases mem_keys_mapAssign m kv.1 kv.2 x h1 with h2 | h2
      · exact Or.inr (by simp [h2])
      · exact Or.inl h2
    · exact Or.inr (by simp only [List.map_cons, List.mem_cons]; exact Or.inr h1)

/-- Every key of the map built from an object is the key of one of its
members. -/
theorem mem_keys_goMapOf (kvs : JObject) (x : String)
    (h : x ∈ (goMapOf kvs).map Prod.fst) : x ∈ kvs.map Prod.fst := by
  rcases mem_keys_foldl_mapAssign kvs [] x h with h1 | h1
  · simp at h1
  · exact h1

/-- The typed decoding of a re-marshalled map reads back the location that was
written to the map, when no other key of the map equals `LocationId` up to
letter case. -/
theorem unmarshal_marshal_location {ρ σ : Type} (w : World ρ σ) (m : GoMap) (loc : String)
    (h : (m.map Prod.fst).Nodup)
    (hfold : ∀ k ∈ m.map Prod.fst, equalFold "LocationId" k = true → k = "LocationId") :
    (jsonUnmarshalOrder w
      (jsonMarshalMap w (mapAssign m "LocationId" (JVal.str loc)))).1.LocationID = loc := by
  unfold jsonMarshalMap jsonUnmarshalOrder
  simp only []
  rw [foldl_storeLocation_filter, List.filter_map]
  have hcomp : ((fun kv : String × JVal => equalFold "LocationId" kv.1) ∘
      fun kv : String × JVal => (kv.1, reprintVal w kv.2)) =
      fun kv : String × JVal => equalFold "LocationId" kv.1 := rfl
  rw [hcomp]
  have hsort := List.perm_insertionSort (fun a b : String × JVal => a.1.data ≤ b.1.data)
    (mapAssign m "LocationId" (JVal.str loc))
  have hcongr : (List.insertionSort (fun a b : String × JVal => a.1.data ≤ b.1.data)
      (mapAssign m "LocationId" (JVal.str loc))).filter
        (fun kv : String × JVal => equalFold "LocationId" kv.1) =
      (List.insertionSort (fun a b : String × JVal => a.1.data ≤ b.1.data)
      (mapAssign m "LocationId" (JVal.str loc))).filter
        (fun kv : String × JVal => decide (kv.1 = "LocationId")) := by
    apply List.filter_congr
    intro x hx
    have hx2 : x.1 ∈ (mapAssign m "LocationId" (JVal.str loc)).map Prod.fst :=
      List.mem_map.2 ⟨x, hsort.mem_iff.1 hx, rfl⟩
    have hkey : equalFold "LocationId" x.1 = true → x.1 = "LocationId" := by
      rcases mem_keys_mapAssign m "LocationId" (JVal.str loc) x.1 hx2 with h1 | h1
      · exact fun _ => h1
      · exact hfold x.1 h1
    by_cases hk : x.1 = "LocationId"
    · rw [hk]; decide
    · cases he : equalFold "LocationId" x.1
      · simp [hk]
      · exact absurd (hkey he) hk
  rw [hcongr]
  have hperm := hsort.filter (fun kv : String × JVal => decide (kv.1 = "LocationId"))
  rw [filter_key_mapAssign m "LocationId" (JVal.str loc) h, List.perm_singleton] at hperm
  rw [hperm]
  have he : equalFold "LocationId" "LocationId" = true := by decide
  simp [storeLocation, reprintVal, he]

theorem stringsContains_ne_empty (s : String) (h : stringsContains s "@" = true) : s ≠ "" := by
  rintro rfl
  revert h
  decide

/-- The iteration for an object whose `LocationId` is a string with an `@` and
which has no other key equal to `LocationId` up to letter case. -/
theorem decodeRecord_at {ρ σ : Type} (w : World ρ σ) (kvs : JObject) (loc : String)
    (hloc : mapIndex (goMapOf kvs) "LocationId" = some (JVal.str loc))
    (hat : stringsContains loc "@" = true)
    (hfold : ∀ k ∈ kvs.map Prod.fst, equalFold "LocationId" k = true → k = "LocationId") :
    ∃ d, decodeRecord w (JsonText.object kvs) = Except.ok d ∧ d.1.LocationID = loc := by
  refine ⟨_, rfl, ?_⟩
  have hp : pullLocation (goMapOf kvs) = loc := by simp [pullLocation, hloc]
  simp only [rewriteLocation, hp, hat, if_true]
  exact unmarshal_marshal_location w (goMapOf kvs) loc (goMapOf_nodup kvs)
    (fun k hk => hfold k (mem_keys_goMapOf kvs k hk))

theorem setLocation_of_ne {ρ σ : Type} (o : MarketOrder ρ) (state : albionState σ)
    (h : o.LocationID ≠ "") : setLocation o state = o := by
  simp [setLocation, h]

/-! ## Lemmas on the loop over the payloads -/

theorem decodeRecord_accepted {ρ σ : Type} (w : World ρ σ) (v : JsonText)
    (h : acceptedAsMap v = true) : ∃ d, decodeRecord w v = Except.ok d := by
  cases v with
  | invalid t => simp [acceptedAsMap, jsonUnmarshalMap] at h
  | null => exact ⟨_, rfl⟩
  | object kvs => exact ⟨_, rfl⟩

theorem decodeRecord_rejected {ρ σ : Type} (w : World ρ σ) (v : JsonText)
    (h : acceptedAsMap v = false) : ∃ t, decodeRecord w v = Except.error t := by
  cases v with
  | invalid t => exact ⟨t, rfl⟩
  | null => simp [acceptedAsMap, jsonUnmarshalMap] at h
  | object kvs => simp [acceptedAsMap, jsonUnmarshalMap] at h

theorem collectOrders_cons_ok {ρ σ : Type} (w : World ρ σ) (state : albionState σ)
    (v : JsonText) (vs : List JsonText) (d : MarketOrder ρ × Bool)
    (h : decodeRecord w v = Except.ok d) :
    collectOrders w state (v :: vs) =
      ((collectOrders w state vs).1.map (fun orders => setLocation d.1 state :: orders),
        (if d.2 then [Effect.logErrorConvert] else []) ++ (collectOrders w state vs).2) := by
  simp [collectOrders, loopBody, h]

theorem collectOrders_cons_error {ρ σ : Type} (w : World ρ σ) (state : albionState σ)
    (v : JsonText) (vs : List JsonText) (t : String)
    (h : decodeRecord w v = Except.error t) :
    collectOrders w state (v :: vs) = (none, [Effect.logFatal t]) := by
  simp [collectOrders, loopBody, h]

/-- When the loop runs to its end, the orders match the payloads one to one, in
order. -/
theorem collectOrders_some {ρ σ : Type} (w : World ρ σ) (state : albionState σ)
    (vs : List JsonText) (orders : List (MarketOrder ρ))
    (h : (collectOrders w state vs).1 = some orders) :
    List.Forall₂ (Appends w state) vs orders := by
  induction vs generalizing orders with
  | nil =>
    simp [collectOrders] at h
    subst h
    exact List.Forall₂.nil
  | cons v vs ih =>
    cases hd : decodeRecord w v with
    | error t => rw [collectOrders_cons_error w state v vs t hd] at h; cases h
    | ok d =>
      rw [collectOrders_cons_ok w state v vs d hd] at h
      simp only [Option.map_eq_some'] at h
      obtain ⟨os, hos, rfl⟩ := h
      exact List.Forall₂.cons ⟨d, hd, rfl⟩ (ih os hos)

/-- Payloads that the first `json.Unmarshal` accepts never stop the loop. -/
theorem collectOrders_accepted {ρ σ : Type} (w : World ρ σ) (state : albionState σ)
    (vs : List JsonText) (h : ∀ v ∈ vs, acceptedAsMap v = true) :
    ∃ orders, (collectOrders w state vs).1 = some orders := by
  induction vs with
  | nil => exact ⟨[], rfl⟩
  | cons v vs ih =>
    obtain ⟨d, hd⟩ := decodeRecord_accepted w v (h v (List.mem_cons_self _ _))
    obtain ⟨os, hos⟩ := ih (fun x hx => h x (List.mem_cons_of_mem _ hx))
    rw [collectOrders_cons_ok w state v vs d hd]
    exact ⟨setLocation d.1 state :: os, by simp [hos]⟩

/-- A payload that the first `json.Unmarshal` rejects stops the loop. -/
theorem collectOrders_rejected {ρ σ : Type} (w : World ρ σ) (state : albionState σ)
    (vs : List JsonText) (x : JsonText) (hx : x ∈ vs) (h : acceptedAsMap x = false) :
    (collectOrders w state vs).1 = none := by
  induction vs with
  | nil => cases hx
  | cons v vs ih =>
    cases hd : decodeRecord w v with
    | error t2 => rw [collectOrders_cons_error w state v vs t2 hd]
    | ok d =>
      rw [collectOrders_cons_ok w state v vs d hd]
      rcases List.mem_cons.1 hx with h1 | h1
      · subst h1
        obtain ⟨t, ht⟩ := decodeRecord_rejected w x h
        rw [ht] at hd; cases hd
      · simp [ih h1]

/-- The loop writes nothing but its own error lines. -/
theorem collectOrders_log {ρ σ : Type} (w : World ρ σ) (state : albionState σ)
    (vs : List JsonText) :
    ∀ e ∈ (collectOrders w state vs).2,
      e = Effect.logErrorConvert ∨ ∃ t, e = Effect.logFatal t := by
  induction vs with
  | nil => intro e he; simp [collectOrders] at he
  | cons v vs ih =>
    intro e he
    cases hd : decodeRecord w v with
    | error t =>
      rw [collectOrders_cons_error w state v vs t hd] at he
      simp only [List.mem_singleton] at he
      exact Or.inr ⟨t, he⟩
    | ok d =>
      rw [collectOrders_cons_ok w state v vs d hd] at he
      simp only [List.mem_append] at he
      rcases he with he | he
      · cases hd2 : d.2 <;> simp [hd2] at he
        exact Or.inl he
      · exact ih e he

/-- One error line per payload whose typed decoding fails. -/
theorem collectOrders_errors {ρ σ : Type} (w : World ρ σ) (state : albionState σ)
    (vs : List JsonText) (h : ∀ v ∈ vs, acceptedAsMap v = true) :
    ((collectOrders w state vs).2.filter Effect.isErrorConvert).length =
      (vs.filter (failsTypedDecode w)).length := by
  induction vs with
  | nil => rfl
  | cons v vs ih =>
    obtain ⟨d, hd⟩ := decodeRecord_accepted w v (h v (List.mem_cons_self _ _))
    have ih2 := ih (fun x hx => h x (List.mem_cons_of_mem _ hx))
    rw [collectOrders_cons_ok w state v vs d hd]
    have hf : failsTypedDecode w v = d.2 := by simp [failsTypedDecode, hd]
    cases hd2 : d.2
    · rw [List.filter_cons_of_neg (by simp [hf, hd2])]
      simpa using ih2
    · rw [List.filter_cons_of_pos (by simp [hf, hd2])]
      simp only [if_true, List.singleton_append, List.length_cons]
      rw [List.filter_cons_of_pos rfl, List.length_cons, ih2]

/-! ## Lemmas on the HTTP loop and on the whole trace -/

theorem privateHTTPLoop_cons {ρ σ : Type} (w : World ρ σ) (upload : MarketUpload ρ)
    (identifier : String) (i : Nat) (baseURL : String) (urls : List String) :
    ∃ report : Effect ρ,
      privateHTTPLoop w upload identifier i (baseURL :: urls) =
        Effect.httpPost (ingestURL baseURL) "application/json" (w.encodeUpload upload) ::
          report :: privateHTTPLoop w upload identifier (i + 1) urls ∧
      report.isHttpPost = false ∧ report.isPublish = false ∧ report.isNewV4 = false ∧
      report.isErrorConvert = false ∧
      (∀ n url id, report = Effect.logInfoSent n url id →
        n = upload.Orders.length ∧ id = identifier) := by
  cases hp : w.post i with
  | transportError err =>
    exact ⟨Effect.logErrorPost (ingestURL baseURL) err,
      by simp [privateHTTPLoop, jsonMarshalUpload, hp], rfl, rfl, rfl, rfl,
      fun n url id h => by cases h⟩
  | response s =>
    by_cases hs : (decide (s ≥ 200) && decide (s < 300)) = true
    · exact ⟨Effect.logInfoSent upload.Orders.length (ingestURL baseURL) identifier,
        by simp only [privateHTTPLoop, jsonMarshalUpload, hp]; rw [if_pos hs],
        rfl, rfl, rfl, rfl, fun n url id h => by cases h; exact ⟨rfl, rfl⟩⟩
    · exact ⟨Effect.logErrorStatus s (ingestURL baseURL),
        by simp only [privateHTTPLoop, jsonMarshalUpload, hp]; rw [if_neg hs],
        rfl, rfl, rfl, rfl, fun n url id h => by cases h⟩

/-- The POSTs of the loop: one per remaining sink, to its normalised URL, with
the marshalled upload as body, whatever the sinks answer. -/
theorem privateHTTPLoop_posts {ρ σ : Type} (w : World ρ σ) (upload : MarketUpload ρ)
    (identifier : String) (i : Nat) (urls : List String) :
    (privateHTTPLoop w upload identifier i urls).filter Effect.isHttpPost =
      urls.map (fun u =>
        Effect.httpPost (ingestURL u) "application/json" (w.encodeUpload upload)) := by
  induction urls generalizing i with
  | nil => rfl
  | cons u urls ih =>
    obtain ⟨report, h, h1, _⟩ := privateHTTPLoop_cons w upload identifier i u urls
    rw [h, List.filter_cons_of_pos rfl, List.filter_cons_of_neg (by simp [h1]), ih]
    rfl

/-- The loop neither publishes nor draws an identifier nor writes a decoding
error, and its success lines carry the batch size and the identifier given. -/
theorem privateHTTPLoop_others {ρ σ : Type} (w : World ρ σ) (upload : MarketUpload ρ)
    (identifier : String) (i : Nat) (urls : List String) :
    ∀ e ∈ privateHTTPLoop w upload identifier i urls,
      e.isPublish = false ∧ e.isNewV4 = false ∧ e.isErrorConvert = false ∧
      (∀ n url id, e = Effect.logInfoSent n url id →
        n = upload.Orders.length ∧ id = identifier) := by
  induction urls generalizing i with
  | nil => intro e he; cases he
  | cons u urls ih =>
    obtain ⟨report, h, _, h2, h3, h4, h5⟩ := privateHTTPLoop_cons w upload identifier i u urls
    intro e he
    rw [h] at he
    simp only [List.mem_cons] at he
    rcases he with he | he | he
    · subst he; exact ⟨rfl, rfl, rfl, fun n url id h => by cases h⟩
    · subst he; exact ⟨h2, h3, h4, h5⟩
    · exact ih (i + 1) e he

theorem sendToPrivateHTTP_eq {ρ σ : Type} (w : World ρ σ)
    (op : operationAuctionGetOffersResponse) (upload : MarketUpload ρ)
    (state : albionState σ) (identifier : String) :
    op.sendToPrivateHTTP w upload state identifier =
      privateHTTPLoop w upload identifier 0 state.PrivateHTTPURLs := by
  unfold operationAuctionGetOffersResponse.sendToPrivateHTTP
  split
  · rename_i h
    rw [List.length_eq_zero.1 h]
    rfl
  · rfl

/-! ## The paths of `operationAuctionGetOffersResponse.Process` -/

/-- The path on which a batch is dispatched. -/
theorem Process_dispatch {ρ σ : Type} (w : World ρ σ) (op : operationAuctionGetOffersResponse)
    (state : albionState σ) (orders : List (MarketOrder ρ))
    (hvalid : w.IsValidLocation { state with WaitingForMarketData := false } = true)
    (hsome : (collectOrders w { state with WaitingForMarketData := false }
      op.MarketOrders).1 = some orders)
    (hne : orders ≠ []) :
    op.Process w state =
      { state := { state with WaitingForMarketData := false },
        trace := [Effect.logDebug "Got response to AuctionGetOffers operation..."] ++
          (collectOrders w { state with WaitingForMarketData := false } op.MarketOrders).2 ++
          [Effect.uuidNewV4 w.newV4,
           Effect.logInfoSending orders.length w.newV4,
           Effect.sendMsgToPublicUploaders ⟨orders⟩ w.NatsMarketOrdersIngest w.newV4] ++
          op.sendToPrivateHTTP w ⟨orders⟩ { state with WaitingForMarketData := false } w.newV4,
        exited := false } := by
  have hlen : ¬ orders.length < 1 := by
    cases orders with
    | nil => exact absurd rfl hne
    | cons o os => simp
  unfold operationAuctionGetOffersResponse.Process
  simp only [hvalid, Bool.not_true, Bool.false_eq_true, if_false]
  generalize collectOrders w { state with WaitingForMarketData := false }
    op.MarketOrders = r at hsome
  obtain ⟨r1, r2⟩ := r
  simp only at hsome
  subst hsome
  simp only [hlen, if_false]

/-- The path on which `log.Fatal` ends the process. -/
theorem Process_fatal {ρ σ : Type} (w : World ρ σ) (op : operationAuctionGetOffersResponse)
    (state : albionState σ)
    (hvalid : w.IsValidLocation { state with WaitingForMarketData := false } = true)
    (hnone : (collectOrders w { state with WaitingForMarketData := false }
      op.MarketOrders).1 = none) :
    op.Process w state =
      { state := { state with WaitingForMarketData := false },
        trace := [Effect.logDebug "Got response to AuctionGetOffers operation..."] ++
          (collectOrders w { state with WaitingForMarketData := false } op.MarketOrders).2,
        exited := true } := by
  unfold operationAuctionGetOffersResponse.Process
  simp only [hvalid, Bool.not_true, Bool.false_eq_true, if_false]
  generalize collectOrders w { state with WaitingForMarketData := false }
    op.MarketOrders = r at hnone
  obtain ⟨r1, r2⟩ := r
  simp only at hnone
  subst hnone
  rfl

/-- The path on which the loop ran to its end without an order. -/
theorem Process_empty {ρ σ : Type} (w : World ρ σ) (op : operationAuctionGetOffersResponse)
    (state : albionState σ)
    (hvalid : w.IsValidLocation { state with WaitingForMarketData := false } = true)
    (hsome : (collectOrders w { state with WaitingForMarketData := false }
      op.MarketOrders).1 = some []) :
    op.Process w state =
      { state := { state with WaitingForMarketData := false },
        trace := [Effect.logDebug "Got response to AuctionGetOffers operation..."] ++
          (collectOrders w { state with WaitingForMarketData := false } op.MarketOrders).2,
        exited := false } := by
  unfold operationAuctionGetOffersResponse.Process
  simp only [hvalid, Bool.not_true, Bool.false_eq_true, if_false]
  generalize collectOrders w { state with WaitingForMarketData := false }
    op.MarketOrders = r at hsome
  obtain ⟨r1, r2⟩ := r
  simp only at hsome
  subst hsome
  simp

theorem not_publish_of_log {ρ σ : Type} (w : World ρ σ) (state : albionState σ)
    (vs : List JsonText) (e : Effect ρ) (he : e ∈ (collectOrders w state vs).2) :
    e.isPublish = false ∧ e.isNewV4 = false ∧ e.isHttpPost = false := by
  rcases collectOrders_log w state vs e he with h | ⟨t, h⟩ <;> subst h <;> exact ⟨rfl, rfl, rfl⟩

/-- A batch that reaches the pub/sub sink is the one that the loop collected,
under a valid location, with the identifier that was drawn. -/
theorem Process_publish_inv {ρ σ : Type} (w : World ρ σ)
    (op : operationAuctionGetOffersResponse) (state : albionState σ)
    (u : MarketUpload ρ) (topic identifier : String)
    (h : Effect.sendMsgToPublicUploaders u topic identifier ∈ (op.Process w state).trace) :
    w.IsValidLocation { state with WaitingForMarketData := false } = true ∧
    (collectOrders w { state with WaitingForMarketData := false } op.MarketOrders).1 =
      some u.Orders ∧
    u.Orders ≠ [] ∧ topic = w.NatsMarketOrdersIngest ∧ identifier = w.newV4 := by
  cases hvalid : w.IsValidLocation { state with WaitingForMarketData := false } with
  | false =>
    exfalso
    unfold operationAuctionGetOffersResponse.Process at h
    simp [hvalid] at h
  | true =>
    have hlog : Effect.sendMsgToPublicUploaders u topic identifier ∉
        [Effect.logDebug "Got response to AuctionGetOffers operation..."] ++
          (collectOrders w { state with WaitingForMarketData := false } op.MarketOrders).2 := by
      intro hm
      simp only [List.mem_append, List.mem_singleton] at hm
      rcases hm with hm | hm
      · cases hm
      · have := (not_publish_of_log w _ _ _ hm).1
        simp [Effect.isPublish] at this
    cases hc : (collectOrders w { state with WaitingForMarketData := false }
        op.MarketOrders).1 with
    | none =>
      rw [Process_fatal w op state hvalid hc] at h
      exact absurd h hlog
    | some orders =>
      by_cases hne : orders = []
      · subst hne
        rw [Process_empty w op state hvalid hc] at h
        exact absurd h hlog
      · rw [Process_dispatch w op state orders hvalid hc hne] at h
        simp only [List.mem_append] at h
        rcases h with (h | h) | h
        · exact absurd (List.mem_append.2 h) hlog
        · simp only [List.mem_cons, List.mem_singleton, List.not_mem_nil, or_false] at h
          rcases h with h | h | h
          · cases h
          · cases h
          · cases h
            exact ⟨rfl, rfl, hne, rfl, rfl⟩
        · rw [sendToPrivateHTTP_eq] at h
          have := (privateHTTPLoop_others w _ _ _ _ _ h).1
          simp [Effect.isPublish] at this

/-! ## The records and the batch: C1, C2, C4, C5, C6 -/

theorem forall₂_getElem? {α β : Type} (R : α → β → Prop) (l₁ : List α) (l₂ : List β)
    (h : List.Forall₂ R l₁ l₂) (i : Nat) (a : α) (ha : l₁[i]? = some a) :
    ∃ b, l₂[i]? = some b ∧ R a b := by
  induction h generalizing i with
  | nil => simp at ha
  | cons hab _ ih =>
    cases i with
    | zero =>
      simp only [List.getElem?_cons_zero, Option.some.injEq] at ha
      subst ha
      exact ⟨_, by simp, hab⟩
    | succ j =>
      simp only [List.getElem?_cons_succ] at ha
      obtain ⟨b, hb, hr⟩ := ih j ha
      exact ⟨b, by simpa using hb, hr⟩

/-- C1 as stated fails: the record
`{"locationid":"9999","LocationId":"0007@1000"}` has the `LocationId`
string `0007@1000`, which contains `@`, so the map is re-marshalled with its
keys sorted, `LocationId` before `locationid`; the typed decoding then writes
`0007@1000` and overwrites it with `9999`, the value of the member whose key
equals `LocationId` up to letter case.  The order in the batch has the
`LocationID` `9999`. -/
theorem at_location_overwritten_counterexample :
    mapIndex (goMapOf [("locationid", JVal.str "9999"), ("LocationId", JVal.str "0007@1000")])
        "LocationId" = some (JVal.str "0007@1000") ∧
    stringsContains "0007@1000" "@" = true ∧
    jsonMarshalMap demoWorld
        (mapAssign (goMapOf [("locationid", JVal.str "9999"),
          ("LocationId", JVal.str "0007@1000")]) "LocationId" (JVal.str "0007@1000")) =
      JsonText.object [("LocationId", JVal.str "0007@1000"), ("locationid", JVal.str "9999")] ∧
    loopBody demoWorld (demoState [])
        (JsonText.object [("locationid", JVal.str "9999"),
          ("LocationId", JVal.str "0007@1000")]) =
      Iteration.appended ⟨"9999", ""⟩ [] ∧
    (operationAuctionGetOffersResponse.Process demoWorld
        ⟨[JsonText.object [("locationid", JVal.str "9999"),
          ("LocationId", JVal.str "0007@1000")]]⟩ (demoState [])).trace =
      [Effect.logDebug "Got response to AuctionGetOffers operation...",
       Effect.uuidNewV4 "6ba7b810-9dad-41d1-80b4-00c04fd430c8",
       Effect.logInfoSending 1 "6ba7b810-9dad-41d1-80b4-00c04fd430c8",
       Effect.sendMsgToPublicUploaders ⟨[⟨"9999", ""⟩]⟩ "marketorders.ingest"
         "6ba7b810-9dad-41d1-80b4-00c04fd430c8"] := by
  decide

/-- C1, amended: for a raw record whose `LocationId` is a string containing `@`
(the string as `json.Unmarshal` decodes it) and which has no other member whose
key equals `LocationId` up to letter case, and every session state, the
iteration of the loop appends an order whose `LocationID` is that string
unchanged; and in every batch that `Process` hands to the pub/sub sink, the
order at the position of such a record has that `LocationID`. -/
theorem at_location_passed_through {ρ σ : Type} (w : World ρ σ) (state : albionState σ)
    (kvs : JObject) (loc : String)
    (hloc : mapIndex (goMapOf kvs) "LocationId" = some (JVal.str loc))
    (hat : stringsContains loc "@" = true)
    (hfold : ∀ k ∈ kvs.map Prod.fst, equalFold "LocationId" k = true → k = "LocationId") :
    (∃ o log, loopBody w state (JsonText.object kvs) = Iteration.appended o log ∧
      o.LocationID = loc) ∧
    (∀ (op : operationAuctionGetOffersResponse) (i : Nat) (u : MarketUpload ρ)
        (topic identifier : String),
      op.MarketOrders[i]? = some (JsonText.object kvs) →
      Effect.sendMsgToPublicUploaders u topic identifier ∈ (op.Process w state).trace →
      ∃ o, u.Orders[i]? = some o ∧ o.LocationID = loc) := by
  obtain ⟨d, hd, hdl⟩ := decodeRecord_at w kvs loc hloc hat hfold
  have hne : d.1.LocationID ≠ "" := by
    rw [hdl]; exact stringsContains_ne_empty loc hat
  constructor
  · refine ⟨setLocation d.1 state, if d.2 then [Effect.logErrorConvert] else [], ?_, ?_⟩
    · simp only [loopBody, hd]
    · rw [setLocation_of_ne d.1 state hne]; exact hdl
  · intro op i u topic identifier hi hpub
    obtain ⟨_, hc, _⟩ := Process_publish_inv w op state u topic identifier hpub
    obtain ⟨o, ho, d2, hd2, ho2⟩ := forall₂_getElem? _ _ _
      (collectOrders_some w _ op.MarketOrders u.Orders hc) i _ hi
    rw [hd] at hd2
    cases hd2
    refine ⟨o, ho, ?_⟩
    rw [ho2, setLocation_of_ne d.1 _ hne]
    exact hdl

/-- C1 amended, on the example scenario of the spec: the first record has the
location `0007@1000` and no other key like `LocationId`, the session stands in
`3005`. -/
theorem at_location_passed_through_witness :
    (∃ o log, loopBody demoWorld (demoState [])
        (JsonText.object [("LocationId", JVal.str "0007@1000"), ("ItemTypeId", JVal.str "T4_BAG")]) =
          Iteration.appended o log ∧ o.LocationID = "0007@1000") ∧
    (∃ o, (MarketUpload.Orders (ρ := String)
        ⟨[⟨"0007@1000", "T4_BAG"⟩, ⟨"3005", "T5_SWORD"⟩]⟩)[0]? = some o ∧
      o.LocationID = "0007@1000") :=
  ⟨(at_location_passed_through demoWorld (demoState [])
      [("LocationId", JVal.str "0007@1000"), ("ItemTypeId", JVal.str "T4_BAG")] "0007@1000"
      (by decide) (by decide) (by decide)).1,
    (at_location_passed_through demoWorld (demoState [])
      [("LocationId", JVal.str "0007@1000"), ("ItemTypeId", JVal.str "T4_BAG")] "0007@1000"
      (by decide) (by decide) (by decide)).2 ⟨demoRecords⟩ 0
      ⟨[⟨"0007@1000", "T4_BAG"⟩, ⟨"3005", "T5_SWORD"⟩]⟩ "marketorders.ingest"
      "6ba7b810-9dad-41d1-80b4-00c04fd430c8" (by decide) (by decide)⟩

theorem setLocation_eq_specResolve {ρ σ : Type} (o : MarketOrder ρ) (state : albionState σ) :
    setLocation o state = specResolve o state.LocationId := by
  obtain ⟨l, r⟩ := o
  unfold setLocation specResolve
  by_cases h : l = "" <;> simp [h]

/-- C2: the location resolution of `Process` equals the reference rule of the
spec.  For every decoded order and session state the resulting `LocationID` is
the session location when the order has the empty one and its own otherwise,
the other fields are unchanged, and every order of a batch that `Process`
dispatches is the reference rule applied to the typed decoding of its record. -/
theorem location_resolution_refines {ρ σ : Type} (w : World ρ σ) (o : MarketOrder ρ)
    (state : albionState σ) :
    setLocation o state = specResolve o state.LocationId ∧
    (setLocation o state).LocationID =
      (if o.LocationID = "" then state.LocationId else o.LocationID) ∧
    (setLocation o state).rest = o.rest ∧
    (o.LocationID = "" → (setLocation o state).LocationID = state.LocationId) ∧
    (∀ (op : operationAuctionGetOffersResponse) (u : MarketUpload ρ)
        (topic identifier : String),
      Effect.sendMsgToPublicUploaders u topic identifier ∈ (op.Process w state).trace →
      List.Forall₂ (fun v r => ∃ d, decodeRecord w v = Except.ok d ∧
          r = specResolve d.1 state.LocationId ∧ r.rest = d.1.rest)
        op.MarketOrders u.Orders) := by
  have h := setLocation_eq_specResolve o state
  refine ⟨h, ?_, ?_, ?_, ?_⟩
  · rw [h]; rfl
  · rw [h]; rfl
  · intro he; rw [h]; simp [specResolve, he]
  · intro op u topic identifier hpub
    obtain ⟨_, hc, _⟩ := Process_publish_inv w op state u topic identifier hpub
    refine (collectOrders_some w _ op.MarketOrders u.Orders hc).imp ?_
    rintro v r ⟨d, hd, hr⟩
    refine ⟨d, hd, ?_, ?_⟩
    · rw [hr, setLocation_eq_specResolve]
    · rw [hr, setLocation_eq_specResolve]; rfl

/-- C2 on the second record of the example scenario: an empty `LocationId` and
the session location `3005`. -/
theorem location_resolution_refines_witness :
    (setLocation (⟨"", "T5_SWORD"⟩ : MarketOrder String) (demoState [])).LocationID = "3005" ∧
    List.Forall₂ (fun v r => ∃ d, decodeRecord demoWorld v = Except.ok d ∧
        r = specResolve d.1 "3005" ∧ r.rest = d.1.rest)
      demoRecords [⟨"0007@1000", "T4_BAG"⟩, ⟨"3005", "T5_SWORD"⟩] :=
  ⟨(location_resolution_refines demoWorld ⟨"", "T5_SWORD"⟩ (demoState [])).2.2.2.1 rfl,
    (location_resolution_refines demoWorld ⟨"", "T5_SWORD"⟩ (demoState [])).2.2.2.2
      ⟨demoRecords⟩ ⟨[⟨"0007@1000", "T4_BAG"⟩, ⟨"3005", "T5_SWORD"⟩]⟩ "marketorders.ingest"
      "6ba7b810-9dad-41d1-80b4-00c04fd430c8" (by decide)⟩

theorem filter_log_nil {ρ σ : Type} (w : World ρ σ) (state : albionState σ)
    (vs : List JsonText) (p : Effect ρ → Bool)
    (hp : p Effect.logErrorConvert = false ∧ ∀ t, p (Effect.logFatal t) = false) :
    (collectOrders w state vs).2.filter p = [] := by
  rw [List.filter_eq_nil_iff]
  intro e he
  rcases collectOrders_log w state vs e he with h | ⟨t, h⟩
  · subst h; simp [hp.1]
  · subst h; simp [hp.2 t]

theorem filter_sendToPrivateHTTP_nil {ρ σ : Type} (w : World ρ σ)
    (op : operationAuctionGetOffersResponse) (upload : MarketUpload ρ)
    (state : albionState σ) (identifier : String) (p : Effect ρ → Bool)
    (hp : ∀ e : Effect ρ,
      e.isPublish = false ∧ e.isNewV4 = false ∧ e.isErrorConvert = false → p e = false) :
    (op.sendToPrivateHTTP w upload state identifier).filter p = [] := by
  rw [List.filter_eq_nil_iff]
  intro e he
  rw [sendToPrivateHTTP_eq] at he
  have h := privateHTTPLoop_others w _ _ _ _ e he
  simp [hp e ⟨h.1, h.2.1, h.2.2.1⟩]

/-- What the trace of the dispatching path holds, kind by kind. -/
theorem Process_dispatch_filters {ρ σ : Type} (w : World ρ σ)
    (op : operationAuctionGetOffersResponse) (state : albionState σ)
    (orders : List (MarketOrder ρ))
    (hvalid : w.IsValidLocation { state with WaitingForMarketData := false } = true)
    (hsome : (collectOrders w { state with WaitingForMarketData := false }
      op.MarketOrders).1 = some orders)
    (hne : orders ≠ []) :
    (op.Process w state).exited = false ∧
    (op.Process w state).trace.filter Effect.isNewV4 = [Effect.uuidNewV4 w.newV4] ∧
    (op.Process w state).trace.filter Effect.isPublish =
      [Effect.sendMsgToPublicUploaders ⟨orders⟩ w.NatsMarketOrdersIngest w.newV4] ∧
    (op.Process w state).trace.filter Effect.isHttpPost =
      state.PrivateHTTPURLs.map (fun u =>
        Effect.httpPost (ingestURL u) "application/json" (w.encodeUpload ⟨orders⟩)) ∧
    (op.Process w state).trace.filter Effect.isErrorConvert =
      (collectOrders w { state with WaitingForMarketData := false }
        op.MarketOrders).2.filter Effect.isErrorConvert := by
  rw [Process_dispatch w op state orders hvalid hsome hne]
  refine ⟨rfl, ?_, ?_, ?_, ?_⟩ <;> simp only [List.filter_append]
  · rw [filter_log_nil w _ _ _ ⟨rfl, fun _ => rfl⟩,
      filter_sendToPrivateHTTP_nil w op _ _ _ Effect.isNewV4 (fun e h => h.2.1)]
    rfl
  · rw [filter_log_nil w _ _ _ ⟨rfl, fun _ => rfl⟩,
      filter_sendToPrivateHTTP_nil w op _ _ _ Effect.isPublish (fun e h => h.1)]
    rfl
  · rw [filter_log_nil w _ _ _ ⟨rfl, fun _ => rfl⟩, sendToPrivateHTTP_eq,
      privateHTTPLoop_posts]
    rfl
  · rw [filter_sendToPrivateHTTP_nil w op _ _ _ Effect.isErrorConvert (fun e h => h.2.2)]
    simp [Effect.isErrorConvert]

/-- The orders of the loop for payloads that are all accepted. -/
theorem collectOrders_accepted_orders {ρ σ : Type} (w : World ρ σ) (state : albionState σ)
    (vs : List JsonText) (h : ∀ v ∈ vs, acceptedAsMap v = true) :
    ∃ orders, (collectOrders w state vs).1 = some orders ∧
      List.Forall₂ (Appends w state) vs orders ∧ orders.length = vs.length := by
  obtain ⟨orders, ho⟩ := collectOrders_accepted w state vs h
  have hf := collectOrders_some w state vs orders ho
  exact ⟨orders, ho, hf, hf.length_eq.symm⟩

theorem ne_nil_of_length_eq {α β : Type} (l₁ : List α) (l₂ : List β)
    (h : l₁.length = l₂.length) (hne : l₂ ≠ []) : l₁ ≠ [] := by
  rintro rfl
  cases l₂ with
  | nil => exact hne rfl
  | cons b bs => simp at h

/-- C4: under a valid session location, a response with N >= 1 raw records, all
accepted by the first `json.Unmarshal`, gives one batch with exactly the N
orders of those records, one drawn identifier, and that batch and identifier
are what both the pub/sub call and `sendToPrivateHTTP` receive. -/
theorem one_batch_one_identifier {ρ σ : Type} (w : World ρ σ)
    (op : operationAuctionGetOffersResponse) (state : albionState σ)
    (hvalid : w.IsValidLocation { state with WaitingForMarketData := false } = true)
    (hacc : ∀ v ∈ op.MarketOrders, acceptedAsMap v = true)
    (hne : op.MarketOrders ≠ []) :
    ∃ (orders : List (MarketOrder ρ)) (log : List (Effect ρ)),
      List.Forall₂ (Appends w { state with WaitingForMarketData := false })
        op.MarketOrders orders ∧
      orders.length = op.MarketOrders.length ∧ 1 ≤ orders.length ∧
      (op.Process w state).trace =
        [Effect.logDebug "Got response to AuctionGetOffers operation..."] ++ log ++
          [Effect.uuidNewV4 w.newV4,
           Effect.logInfoSending orders.length w.newV4,
           Effect.sendMsgToPublicUploaders ⟨orders⟩ w.NatsMarketOrdersIngest w.newV4] ++
          op.sendToPrivateHTTP w ⟨orders⟩ { state with WaitingForMarketData := false }
            w.newV4 ∧
      (op.Process w state).trace.filter Effect.isNewV4 = [Effect.uuidNewV4 w.newV4] ∧
      (op.Process w state).trace.filter Effect.isPublish =
        [Effect.sendMsgToPublicUploaders ⟨orders⟩ w.NatsMarketOrdersIngest w.newV4] ∧
      (∀ n url id, Effect.logInfoSent n url id ∈
          op.sendToPrivateHTTP w ⟨orders⟩ { state with WaitingForMarketData := false }
            w.newV4 → n = orders.length ∧ id = w.newV4) := by
  obtain ⟨orders, ho, hf, hlen⟩ := collectOrders_accepted_orders w
    { state with WaitingForMarketData := false } op.MarketOrders hacc
  have hne2 : orders ≠ [] := ne_nil_of_length_eq _ _ hlen hne
  have hpos : 1 ≤ orders.length := List.length_pos.2 hne2
  have htr := Process_dispatch w op state orders hvalid ho hne2
  obtain ⟨_, h1, h2, _⟩ := Process_dispatch_filters w op state orders hvalid ho hne2
  refine ⟨orders, _, hf, hlen, hpos, by rw [htr], h1, h2, ?_⟩
  intro n url id h
  rw [sendToPrivateHTTP_eq] at h
  exact (privateHTTPLoop_others w _ _ _ _ _ h).2.2.2 n url id rfl

/-- C4 on the example scenario of the spec, with one private sink. -/
theorem one_batch_one_identifier_witness :
    ∃ (orders : List (MarketOrder String)) (log : List (Effect String)),
      List.Forall₂ (Appends demoWorld
        { demoState ["http://h/base/"] with WaitingForMarketData := false })
        demoRecords orders ∧
      orders.length = 2 ∧
      (operationAuctionGetOffersResponse.Process demoWorld ⟨demoRecords⟩
          (demoState ["http://h/base/"])).trace =
        [Effect.logDebug "Got response to AuctionGetOffers operation..."] ++ log ++
          [Effect.uuidNewV4 "6ba7b810-9dad-41d1-80b4-00c04fd430c8",
           Effect.logInfoSending orders.length "6ba7b810-9dad-41d1-80b4-00c04fd430c8",
           Effect.sendMsgToPublicUploaders ⟨orders⟩ "marketorders.ingest"
             "6ba7b810-9dad-41d1-80b4-00c04fd430c8"] ++
          operationAuctionGetOffersResponse.sendToPrivateHTTP demoWorld ⟨demoRecords⟩
            ⟨orders⟩ { demoState ["http://h/base/"] with WaitingForMarketData := false }
            "6ba7b810-9dad-41d1-80b4-00c04fd430c8" := by
  obtain ⟨orders, log, h1, h2, _, h4, _⟩ :=
    one_batch_one_identifier demoWorld ⟨demoRecords⟩ (demoState ["http://h/base/"])
      (by decide) (by decide) (by decide)
  exact ⟨orders, log, h1, h2, h4⟩

/-- C5 as stated fails on both counts.  A record whose `LocationId` is the
number 5 fails the typed decoding, yet its order is appended and the batch that
reaches the pub/sub sink holds it, with the session location filled in; it is
not dropped.  And a payload that is not JSON at all ends the process through
`log.Fatal` before the valid record after it is looked at: nothing is
published. -/
theorem decode_failure_counterexample :
    (failsTypedDecode demoWorld (JsonText.object [("LocationId", JVal.other "5")]) = true ∧
      (operationAuctionGetOffersResponse.Process demoWorld
        ⟨[JsonText.object [("LocationId", JVal.other "5")]]⟩ (demoState [])).trace =
        [Effect.logDebug "Got response to AuctionGetOffers operation...",
         Effect.logErrorConvert,
         Effect.uuidNewV4 "6ba7b810-9dad-41d1-80b4-00c04fd430c8",
         Effect.logInfoSending 1 "6ba7b810-9dad-41d1-80b4-00c04fd430c8",
         Effect.sendMsgToPublicUploaders ⟨[⟨"3005", ""⟩]⟩ "marketorders.ingest"
           "6ba7b810-9dad-41d1-80b4-00c04fd430c8"]) ∧
    (operationAuctionGetOffersResponse.Process demoWorld
        ⟨[JsonText.invalid "not json",
          JsonText.object [("LocationId", JVal.str "0007@1000")]]⟩ (demoState [])) =
      { state := { demoState [] with WaitingForMarketData := false },
        trace := [Effect.logDebug "Got response to AuctionGetOffers operation...",
                  Effect.logFatal "not json"],
        exited := true } := by
  decide

/-- C5, amended: under a valid session location, when every raw record is
accepted by the first `json.Unmarshal`, `Process` does not abort even if
records fail the typed decoding: each such failure is logged once and the loop
goes on, the batch holds one order per raw record, in input order (a record
whose typed decoding failed contributes its order as far as it was decoded,
with the location resolved), so every other record is still processed and
included.  When some raw record is rejected by the first `json.Unmarshal`,
`log.Fatal` ends the process and nothing is published or posted. -/
theorem decode_failure_logged_not_dropped {ρ σ : Type} (w : World ρ σ)
    (op : operationAuctionGetOffersResponse) (state : albionState σ)
    (hvalid : w.IsValidLocation { state with WaitingForMarketData := false } = true) :
    ((∀ v ∈ op.MarketOrders, acceptedAsMap v = true) →
      (op.Process w state).exited = false ∧
      ((op.Process w state).trace.filter Effect.isErrorConvert).length =
        (op.MarketOrders.filter (failsTypedDecode w)).length ∧
      ∃ orders : List (MarketOrder ρ),
        List.Forall₂ (Appends w { state with WaitingForMarketData := false })
          op.MarketOrders orders ∧
        (op.MarketOrders ≠ [] →
          (op.Process w state).trace.filter Effect.isPublish =
            [Effect.sendMsgToPublicUploaders ⟨orders⟩ w.NatsMarketOrdersIngest w.newV4])) ∧
    (∀ x ∈ op.MarketOrders, acceptedAsMap x = false →
      (op.Process w state).exited = true ∧
      (op.Process w state).trace.filter Effect.isPublish = [] ∧
      (op.Process w state).trace.filter Effect.isHttpPost = []) := by
  constructor
  · intro hacc
    obtain ⟨orders, ho, hf, hlen⟩ := collectOrders_accepted_orders w
      { state with WaitingForMarketData := false } op.MarketOrders hacc
    have herr := collectOrders_errors w { state with WaitingForMarketData := false }
      op.MarketOrders hacc
    by_cases hne : orders = []
    · subst hne
      have hm : op.MarketOrders = [] := by
        cases hm : op.MarketOrders with
        | nil => rfl
        | cons v vs => rw [hm] at hlen; simp at hlen
      rw [Process_empty w op state hvalid ho]
      refine ⟨rfl, ?_, [], hf, fun h => absurd hm h⟩
      simp only [List.filter_append]
      rw [← herr]
      simp [Effect.isErrorConvert]
    · obtain ⟨h0, _, h2, _, h4⟩ := Process_dispatch_filters w op state orders hvalid ho hne
      refine ⟨h0, ?_, orders, hf, fun _ => h2⟩
      rw [h4, herr]
  · intro x hx hrej
    have hnone := collectOrders_rejected w { state with WaitingForMarketData := false }
      op.MarketOrders x hx hrej
    rw [Process_fatal w op state hvalid hnone]
    refine ⟨rfl, ?_, ?_⟩
    · simp only [List.filter_append]
      rw [filter_log_nil w _ _ _ ⟨rfl, fun _ => rfl⟩]
      rfl
    · simp only [List.filter_append]
      rw [filter_log_nil w _ _ _ ⟨rfl, fun _ => rfl⟩]
      rfl

/-- C5 amended, on a response whose first record fails the typed decoding and
whose second record is the `@` record of the example scenario. -/
theorem decode_failure_logged_not_dropped_witness :
    (operationAuctionGetOffersResponse.Process demoWorld
        ⟨[JsonText.object [("LocationId", JVal.other "5")],
          JsonText.object [("LocationId", JVal.str "0007@1000")]]⟩ (demoState [])).exited =
      false ∧
    ((operationAuctionGetOffersResponse.Process demoWorld
        ⟨[JsonText.object [("LocationId", JVal.other "5")],
          JsonText.object [("LocationId", JVal.str "0007@1000")]]⟩
        (demoState [])).trace.filter Effect.isErrorConvert).length = 1 :=
  ⟨((decode_failure_logged_not_dropped demoWorld
      ⟨[JsonText.object [("LocationId", JVal.other "5")],
        JsonText.object [("LocationId", JVal.str "0007@1000")]]⟩ (demoState [])
      (by decide)).1 (by decide)).1,
    ((decode_failure_logged_not_dropped demoWorld
      ⟨[JsonText.object [("LocationId", JVal.other "5")],
        JsonText.object [("LocationId", JVal.str "0007@1000")]]⟩ (demoState [])
      (by decide)).1 (by decide)).2.1⟩

/-- The loop over the payloads does not look at the answers of the sinks. -/
theorem collectOrders_post {ρ σ : Type} (w : World ρ σ) (outcomes : Nat → HttpResult)
    (state : albionState σ) (vs : List JsonText) :
    collectOrders { w with post := outcomes } state vs = collectOrders w state vs := by
  induction vs with
  | nil => rfl
  | cons v vs ih =>
    have hd : decodeRecord { w with post := outcomes } v = decodeRecord w v := by
      cases v <;> rfl
    simp only [collectOrders, loopBody, hd, ih]

/-- C6: for every response that gives a non-empty batch, every list of
configured base URLs and every assignment of outcomes to the HTTP sinks,
`Process` does not abort, invokes the pub/sub sink once with the batch, and
`sendToPrivateHTTP` attempts one POST per configured sink, in order, to the
normalised URL of that sink with the marshalled batch; the batch and the list
of POSTs are the same for all assignments of outcomes. -/
theorem fan_out_isolation {ρ σ : Type} (w : World ρ σ)
    (op : operationAuctionGetOffersResponse) (state : albionState σ)
    (hvalid : w.IsValidLocation { state with WaitingForMarketData := false } = true)
    (hacc : ∀ v ∈ op.MarketOrders, acceptedAsMap v = true)
    (hne : op.MarketOrders ≠ []) :
    ∃ orders : List (MarketOrder ρ),
      List.Forall₂ (Appends w { state with WaitingForMarketData := false })
        op.MarketOrders orders ∧
      orders ≠ [] ∧
      ∀ outcomes : Nat → HttpResult,
        (op.Process { w with post := outcomes } state).exited = false ∧
        (op.Process { w with post := outcomes } state).trace.filter Effect.isPublish =
          [Effect.sendMsgToPublicUploaders ⟨orders⟩ w.NatsMarketOrdersIngest w.newV4] ∧
        (op.Process { w with post := outcomes } state).trace.filter Effect.isHttpPost =
          state.PrivateHTTPURLs.map (fun u =>
            Effect.httpPost (ingestURL u) "application/json" (w.encodeUpload ⟨orders⟩)) ∧
        (op.sendToPrivateHTTP { w with post := outcomes } ⟨orders⟩
            { state with WaitingForMarketData := false } w.newV4).filter Effect.isHttpPost =
          state.PrivateHTTPURLs.map (fun u =>
            Effect.httpPost (ingestURL u) "application/json" (w.encodeUpload ⟨orders⟩)) := by
  obtain ⟨orders, ho, hf, hlen⟩ := collectOrders_accepted_orders w
    { state with WaitingForMarketData := false } op.MarketOrders hacc
  have hne2 : orders ≠ [] := ne_nil_of_length_eq _ _ hlen hne
  refine ⟨orders, hf, hne2, fun outcomes => ?_⟩
  have ho2 : (collectOrders { w with post := outcomes }
      { state with WaitingForMarketData := false } op.MarketOrders).1 = some orders := by
    rw [collectOrders_post]; exact ho
  obtain ⟨h0, _, h2, h3, _⟩ := Process_dispatch_filters { w with post := outcomes } op state
    orders hvalid ho2 hne2
  refine ⟨h0, h2, h3, ?_⟩
  rw [sendToPrivateHTTP_eq, privateHTTPLoop_posts]

/-- C6 on the example scenario with three private sinks, the second of which
cannot be reached in the example world; here all three are also tried with the
answers 500, transport error, 404. -/
theorem fan_out_isolation_witness :
    ∃ orders : List (MarketOrder String),
      orders ≠ [] ∧
      (operationAuctionGetOffersResponse.Process
          { demoWorld with post := fun i =>
              if i = 0 then HttpResult.response 500
              else if i = 1 then HttpResult.transportError "timeout"
              else HttpResult.response 404 }
          ⟨demoRecords⟩
          (demoState ["http://a/base/", "http://b/ingest", "http://c"])).trace.filter
          Effect.isHttpPost =
        [Effect.httpPost "http://a/base/ingest" "application/json"
           (demoWorld.encodeUpload ⟨orders⟩),
         Effect.httpPost "http://b/ingest" "application/json"
           (demoWorld.encodeUpload ⟨orders⟩),
         Effect.httpPost "http://c/ingest" "application/json"
           (demoWorld.encodeUpload ⟨orders⟩)] := by
  obtain ⟨orders, _, hne, h⟩ :=
    fan_out_isolation demoWorld ⟨demoRecords⟩
      (demoState ["http://a/base/", "http://b/ingest", "http://c"])
      (by decide) (by decide) (by decide)
  refine ⟨orders, hne, ?_⟩
  rw [(h _).2.2.1]
  have e1 : ingestURL "http://a/base/" = "http://a/base/ingest" := by decide
  have e2 : ingestURL "http://b/ingest" = "http://b/ingest" := by decide
  have e3 : ingestURL "http://c" = "http://c/ingest" := by decide
  simp only [demoState, List.map_cons, List.map_nil, e1, e2, e3]

end AlbionClient
